import Mathlib

set_option maxRecDepth 100000
set_option maxHeartbeats 1000000

/-!
# Verification of the request-handling core of `payment_a`

Shallow embedding, in Lean 4, of the route matcher, the file-backed
document store (`ModelTools`), the token service (`TokenService`) and the
authentication guard of the repository, together with proofs and
refutations of the spec's claims about them.

Modelling conventions:

* JavaScript strings are modelled as `List Char` (`Str`); the byte length
  of `Buffer.from(s)` is the UTF-8 byte size of the string.
* `String.prototype.split(sep)` is modelled by `splitCh`, which agrees
  with the JavaScript semantics on every input (`"" ↦ [""]`,
  `"a..b" ↦ ["a","","b"]`, …).
* JSON values appearing in token payloads are modelled by `JVal`
  (strings and integers suffice for the claims at hand); a JS object is
  an association list with pairwise-distinct keys.
* External library primitives (`crypto.createHmac(...).digest`, the
  base64url + JSON payload codec) are parameters of the embedded
  functions; the facts the code relies on (the codec inverts the
  encoder, the MAC is `.`-free) enter as explicit hypotheses, and
  witnesses instantiate them with concrete executable functions.
* A JavaScript function that can throw is modelled with `Except Unit`;
  `.error ()` is an exception escaping the function, `.ok` a return.
-/

/-- JavaScript strings, as lists of characters. -/
abbrev Str := List Char

/-- Model of `String.prototype.split(sep)` for a one-character separator:
`splitCh sep "" = [""]`, and separators delimit possibly empty fields. -/
def splitCh (sep : Char) : Str → List Str
  | [] => [[]]
  | c :: rest =>
    if c = sep then [] :: splitCh sep rest
    else
      match splitCh sep rest with
      | [] => [[c]]
      | p :: ps => (c :: p) :: ps

/-- `splitCh` never returns the empty list (JS `split` always yields at
least one field). -/
theorem splitCh_ne_nil (sep : Char) (s : Str) : splitCh sep s ≠ [] := by
  induction s with
  | nil => simp [splitCh]
  | cons c rest ih =>
    simp only [splitCh]
    split
    · simp
    · cases h : splitCh sep rest with
      | nil => simp
      | cons p ps => simp

/-- Model of `splitCh sep s = [s]` when the separator does not occur. -/
theorem splitCh_eq_single (sep : Char) (s : Str) (hs : sep ∉ s) :
    splitCh sep s = [s] := by
  induction s with
  | nil => rfl
  | cons c t ih =>
    have hc : c ≠ sep := fun h => hs (h ▸ List.mem_cons_self c t)
    have ht : sep ∉ t := fun h => hs (List.mem_cons_of_mem c h)
    simp [splitCh, hc, ih ht]

/-- Splitting a string of the form `h ++ sep ++ rest` where `h` is
separator-free peels off `h` as the first field. -/
theorem splitCh_append_sep (sep : Char) (h rest : Str) (hh : sep ∉ h) :
    splitCh sep (h ++ sep :: rest) = h :: splitCh sep rest := by
  induction h with
  | nil => simp [splitCh]
  | cons c t ih =>
    have hc : c ≠ sep := fun hcs => hh (hcs ▸ List.mem_cons_self c t)
    have ht : sep ∉ t := fun hm => hh (List.mem_cons_of_mem c hm)
    have := ih ht
    simp only [List.cons_append, splitCh, if_neg hc, List.append_eq, this]

/-- The number of `/`-separated segments of a path, as the router sees it
(`route.split('/').length`). -/
def segCount (s : Str) : Nat := (splitCh '/' s).length

/-!
## Path matcher (`Router._getIdFromParams`, `src/unnamed/part_015` lines
191–207 and `src/unnamed/part_014` lines 244–259)

Both copies of the router implement the same matcher: split the route
pattern and the request path on `/`; throw when the segment counts
differ; otherwise walk the segments and record, for every pattern
segment starting with `:`, the capture name (the segment minus the `:`)
mapped to the path segment at the same position.  No other comparison is
performed.
-/

/-- `seg.startsWith(':')` for a one-character prefix. -/
def startsWithColon : Str → Bool
  | c :: _ => c = ':'
  | [] => false

/-- `seg.slice(1)`: the segment minus its first character. -/
def sliceOne : Str → Str
  | _ :: t => t
  | [] => []

/-- The capture-collection loop of `_getIdFromParams`: iterates the two
segment lists in lockstep and records `(name, value)` for every pattern
segment of the form `:name`. -/
def collectTrack : List Str → List Str → List (Str × Str)
  | r :: rs, x :: xs =>
    if startsWithColon r then (sliceOne r, x) :: collectTrack rs xs
    else collectTrack rs xs
  | _, _ => []

/-- `Router._getIdFromParams route pathname`: throws (`.error ()`) when the
segment counts differ, otherwise returns the captured parameter map. -/
def getIdFromParams (route pathname : Str) : Except Unit (List (Str × Str)) :=
  let ROUTE := splitCh '/' route
  let PATHNAME := splitCh '/' pathname
  if PATHNAME.length ≠ ROUTE.length then .error ()
  else .ok (collectTrack ROUTE PATHNAME)

/-- The parameter mapping as the spec describes it: each `:`-named capture
of the pattern is mapped to the path segment at that position. -/
def specCaptures (route pathname : Str) : List (Str × Str) :=
  ((splitCh '/' route).zip (splitCh '/' pathname)).filterMap
    (fun rx => if startsWithColon rx.1 then some (sliceOne rx.1, rx.2) else none)

theorem collectTrack_eq_zip_filterMap (R P : List Str) :
    collectTrack R P =
      (R.zip P).filterMap
        (fun rx => if startsWithColon rx.1 then some (sliceOne rx.1, rx.2) else none) := by
  induction R generalizing P with
  | nil => cases P <;> simp [collectTrack]
  | cons r rs ih =>
    cases P with
    | nil => simp [collectTrack]
    | cons x xs =>
      simp only [List.zip_cons_cons, List.filterMap_cons, collectTrack]
      by_cases hc : startsWithColon r <;> simp [hc, ih xs]

/-!
## Claim C1 — path matcher and literal segments

The claim states that the matcher succeeds iff every literal (non-`:`)
segment of the pattern equals the corresponding path segment.  The code
never compares literal segments: once the `/`-segment counts agree, the
match succeeds and only the `:`-captures are collected.
-/

/-- C1 counterexample: pattern `/users/:id` against path `/fruits/42` has a
literal segment `users` that differs from the path segment `fruits`, yet
`_getIdFromParams` succeeds and returns `{id: "42"}` — the matcher never
compares literal segments. -/
theorem getIdFromParams_literal_mismatch_accepted :
    (splitCh '/' "/users/:id".toList)[1]? = some "users".toList
    ∧ (splitCh '/' "/fruits/42".toList)[1]? = some "fruits".toList
    ∧ startsWithColon "users".toList = false
    ∧ "users".toList ≠ "fruits".toList
    ∧ getIdFromParams "/users/:id".toList "/fruits/42".toList
        = .ok [("id".toList, "42".toList)] :=
  ⟨rfl, rfl, rfl, by decide, rfl⟩

/-- C1 (amended): for every pattern `P` and path `X`, the matcher succeeds
iff the `/`-segment counts of `P` and `X` are equal — literal segments are
never compared — and on success it returns the mapping from each `:`-named
capture of `P` to the path segment at that position; when the counts
differ the match always fails (throws). -/
theorem getIdFromParams_spec (P X : Str) :
    (segCount P = segCount X → getIdFromParams P X = .ok (specCaptures P X))
    ∧ (segCount P ≠ segCount X → getIdFromParams P X = .error ()) := by
  constructor
  · intro h
    simp only [getIdFromParams, segCount] at *
    rw [if_neg (by omega)]
    rw [collectTrack_eq_zip_filterMap]
    rfl
  · intro h
    simp only [getIdFromParams, segCount] at *
    rw [if_pos (by omega)]

/-- Witness for `getIdFromParams_spec` at concrete inputs. -/
theorem getIdFromParams_spec_witness :
    getIdFromParams "/users/:id".toList "/fruits/42".toList
      = .ok (specCaptures "/users/:id".toList "/fruits/42".toList)
    ∧ getIdFromParams "/users/:id".toList "/users/1/2".toList = .error () :=
  ⟨(getIdFromParams_spec "/users/:id".toList "/fruits/42".toList).1 (by decide),
   (getIdFromParams_spec "/users/:id".toList "/users/1/2".toList).2 (by decide)⟩

/-!
## Token service (`src/services/auth/token.service.js`)

JSON values appearing in token payloads are modelled by `JVal`; a JS
object is an association list of distinct keys.  The external
primitives used by `sign`/`verify` are modelled as follows:

* the keyed MAC `crypto.createHmac('sha256', SECRET).update(m).digest('base64url')`
  is a parameter `hmac : Str → Str`; the facts the code relies on
  (`hmac` output is nonempty, `.`-free, of fixed byte length, and free
  of collisions at the relevant points) enter as hypotheses;
* the payload codec (`JSON.stringify` + base64url on the way in,
  base64url decode + `JSON.parse` on the way out) is modelled by the
  concrete injective encoder `encPayload` for `sign`, and by a
  parameter `dec : Str → Option PayloadV` for `verify`, with the
  round-trip fact `dec (encPayload p) = some p` as a hypothesis where
  a claim needs it (a `none` result of `dec` models a `JSON.parse`
  exception);
* `Buffer.from(s)` has `utf8Len s` bytes, and `crypto.timingSafeEqual`
  throws when the byte lengths differ, else compares contents.
-/

/-- JSON values occurring in token payloads (strings and integers
suffice for the claims under verification). -/
inductive JVal
  | str : String → JVal
  | num : Int → JVal
deriving DecidableEq, Repr

/-- A decoded token payload: a JS object, i.e. an association list with
pairwise-distinct keys. -/
abbrev PayloadV := List (String × JVal)

/-- UTF-8 byte length of a string, i.e. `Buffer.from(s).length`. -/
def utf8Len (l : Str) : Nat := (l.map Char.utf8Size).sum

/-- One base-4 digit over the alphabet `a`/`b`/`c`/`d`. -/
def dig4 (k : Nat) : Char :=
  if k % 4 = 0 then 'a' else if k % 4 = 1 then 'b'
  else if k % 4 = 2 then 'c' else 'd'

theorem dig4_ne_dot (k : Nat) : dig4 k ≠ '.' := by
  unfold dig4
  split
  · decide
  · split
    · decide
    · split
      · decide
      · decide

/-- Fuel-driven base-4 rendering loop (structural, so it reduces). -/
def natCharsAux : Nat → Nat → Str
  | _, 0 => []
  | 0, _+1 => []
  | fuel+1, n+1 => dig4 (n+1) :: natCharsAux fuel ((n+1) / 4)

/-- Base-4 digit string of a natural number over the alphabet
`a`/`b`/`c`/`d` (little-endian, empty for `0`): a compact, `.`-free way
to render numbers inside the modelled encoding. -/
def natChars (n : Nat) : Str := natCharsAux n n

theorem dot_not_mem_natCharsAux (fuel n : Nat) : '.' ∉ natCharsAux fuel n := by
  induction fuel generalizing n with
  | zero => cases n <;> simp [natCharsAux]
  | succ f ih =>
    cases n with
    | zero => simp [natCharsAux]
    | succ m =>
      intro hmem
      simp only [natCharsAux] at hmem
      rcases List.mem_cons.mp hmem with h | h
      · exact dig4_ne_dot (m+1) h.symm
      · exact ih _ h

theorem dot_not_mem_natChars (n : Nat) : '.' ∉ natChars n :=
  dot_not_mem_natCharsAux n n

/-- Model of the base64url image of one source character inside the
encoded payload: an unambiguous, `.`-free, nonempty chunk. -/
def encChar (c : Char) : Str := 'x' :: natChars c.toNat

/-- Model encoding of a JS string inside the payload. -/
def encStr (s : String) : Str := s.toList.flatMap encChar

/-- Model encoding of a JSON value inside the payload. -/
def encJVal : JVal → Str
  | .str s => 'S' :: encStr s
  | .num n => if n < 0 then 'N' :: natChars (-n).toNat
              else 'P' :: natChars n.toNat

/-- Model of `Buffer.from(JSON.stringify(payload)).toString('base64url')`:
a concrete injective, `.`-free, nonempty encoding of the payload object. -/
def encPayload (p : PayloadV) : Str :=
  'J' :: p.flatMap (fun kv => 'K' :: encStr kv.1 ++ 'V' :: encJVal kv.2)

theorem dot_not_mem_encChar (c : Char) : '.' ∉ encChar c := by
  intro h
  rcases List.mem_cons.mp h with h | h
  · exact absurd h (by decide)
  · exact dot_not_mem_natChars c.toNat h

theorem dot_not_mem_encStr (s : String) : '.' ∉ encStr s := by
  intro h
  rcases List.mem_flatMap.mp h with ⟨c, _, hc⟩
  exact dot_not_mem_encChar c hc

theorem dot_not_mem_encJVal (v : JVal) : '.' ∉ encJVal v := by
  intro h
  cases v with
  | str s =>
    rcases List.mem_cons.mp h with h | h
    · exact absurd h (by decide)
    · exact dot_not_mem_encStr s h
  | num n =>
    simp only [encJVal] at h
    split at h <;>
    · rcases List.mem_cons.mp h with h | h
      · exact absurd h (by decide)
      · exact absurd h (dot_not_mem_natChars _)

theorem dot_not_mem_encPayload (p : PayloadV) : '.' ∉ encPayload p := by
  intro h
  rcases List.mem_cons.mp h with h | h
  · exact absurd h (by decide)
  · rcases List.mem_flatMap.mp h with ⟨kv, _, hkv⟩
    rcases List.mem_append.mp hkv with hkv | hkv
    · rcases List.mem_cons.mp hkv with hkv | hkv
      · exact absurd hkv (by decide)
      · exact dot_not_mem_encStr kv.1 hkv
    · rcases List.mem_cons.mp hkv with hkv | hkv
      · exact absurd hkv (by decide)
      · exact dot_not_mem_encJVal kv.2 hkv

theorem encPayload_ne_nil (p : PayloadV) : encPayload p ≠ [] := by
  simp [encPayload]

/-- Constant from the source: `EXPIRES_IN = 60 * 60`. -/
def EXPIRES_IN : Int := 60 * 60

/-- The constant first token part:
`Buffer.from(JSON.stringify({alg:'HS256',typ:'JWT'})).toString('base64url')`. -/
def HEADER : Str := "eyJhbGciOiJIUzI1NiIsInR5cCI6IkpXVCJ9".toList

theorem dot_not_mem_HEADER : '.' ∉ HEADER := by decide

theorem HEADER_ne_nil : HEADER ≠ [] := by decide

/-- Model of the JS object spread `{...payload, exp: e}`: an existing
`exp` key is overwritten in place, otherwise `exp` is appended. -/
def withExp (p : PayloadV) (e : Int) : PayloadV :=
  if (p.lookup "exp").isSome then
    p.map (fun kv => if kv.1 = "exp" then (kv.1, JVal.num e) else kv)
  else p ++ [("exp", JVal.num e)]

/-- The body (second part) of the token `sign` produces when called at
time `signTime` on `claims`. -/
def signBody (claims : PayloadV) (signTime : Int) : Str :=
  encPayload (withExp claims (signTime + EXPIRES_IN))

/-- The message the MAC is computed over: `` `${header}.${body}` ``. -/
def macMsg (body : Str) : Str := HEADER ++ '.' :: body

/-- Model of `TokenService.sign` called at `signTime`
(`Math.floor(Date.now()/1000)`): returns
`` `${header}.${body}.${signature}` ``. -/
def sign (hmac : Str → Str) (claims : PayloadV) (signTime : Int) : Str :=
  HEADER ++ '.' :: signBody claims signTime
    ++ '.' :: hmac (macMsg (signBody claims signTime))

/-- Model of the expiry test `decoded.exp < now` (a missing or
non-numeric `exp` makes the JS comparison false). -/
def expBefore (p : PayloadV) (now : Int) : Bool :=
  match p.lookup "exp" with
  | some (.num e) => decide (e < now)
  | _ => false

/-- Model of `TokenService.verify` called at `now`.  `.error ()` is an
exception escaping `verify` (a `crypto.timingSafeEqual` length mismatch,
or a `JSON.parse`/decode failure), `.ok none` is the `null` failure
sentinel, `.ok (some p)` is a returned decoded payload. -/
def verify (hmac : Str → Str) (dec : Str → Option PayloadV) (now : Int)
    (token : Str) : Except Unit (Option PayloadV) :=
  let parts := splitCh '.' token
  let header := parts.getD 0 []
  let payload := parts.getD 1 []
  let signature := parts.getD 2 []
  if header = [] ∨ payload = [] ∨ signature = [] then .ok none
  else
    let expectedSig := hmac (header ++ '.' :: payload)
    if utf8Len signature ≠ utf8Len expectedSig then .error ()
    else if signature ≠ expectedSig then .ok none
    else
      match dec payload with
      | none => .error ()
      | some decoded => if expBefore decoded now then .ok none else .ok (some decoded)

/-!
## Well-formed token evaluation

A token of the shape `h.b.s` with nonempty `.`-free parts splits back
into those parts, which lets `verify` be evaluated symbolically.
-/

theorem splitCh_three (h b s : Str) (hh : '.' ∉ h) (hb : '.' ∉ b)
    (hs : '.' ∉ s) :
    splitCh '.' (h ++ '.' :: b ++ '.' :: s) = [h, b, s] := by
  rw [List.append_assoc, List.cons_append, splitCh_append_sep _ _ _ hh,
    splitCh_append_sep _ _ _ hb, splitCh_eq_single _ _ hs]

theorem verify_wf (hmac : Str → Str) (dec : Str → Option PayloadV)
    (now : Int) (h b s : Str) (hh1 : h ≠ []) (hh2 : '.' ∉ h)
    (hb1 : b ≠ []) (hb2 : '.' ∉ b) (hs1 : s ≠ []) (hs2 : '.' ∉ s) :
    verify hmac dec now (h ++ '.' :: b ++ '.' :: s)
      = if utf8Len s ≠ utf8Len (hmac (h ++ '.' :: b)) then .error ()
        else if s ≠ hmac (h ++ '.' :: b) then .ok none
        else match dec b with
          | none => .error ()
          | some decoded =>
            if expBefore decoded now then .ok none else .ok (some decoded) := by
  have hsplit := splitCh_three h b s hh2 hb2 hs2
  simp only [verify, hsplit, List.getD_cons_zero, List.getD_cons_succ]
  rw [if_neg (by simp [hh1, hb1, hs1])]

theorem withExp_of_no_exp (claims : PayloadV) (e : Int)
    (h : claims.lookup "exp" = none) :
    withExp claims e = claims ++ [("exp", JVal.num e)] := by
  simp [withExp, h]

theorem lookup_append_exp (claims : PayloadV) (v : JVal)
    (h : claims.lookup "exp" = none) :
    (claims ++ [("exp", v)]).lookup "exp" = some v := by
  induction claims with
  | nil => simp [List.lookup]
  | cons kv rest ih =>
    simp only [List.lookup, List.cons_append] at h ⊢
    cases hkv : ("exp" == kv.1) with
    | true => simp [hkv] at h
    | false => simp only [hkv] at h ⊢; exact ih h

theorem expBefore_withExp (claims : PayloadV) (e now : Int)
    (h : claims.lookup "exp" = none) :
    expBefore (withExp claims e) now = decide (e < now) := by
  rw [withExp_of_no_exp claims e h]
  simp [expBefore, lookup_append_exp claims (JVal.num e) h]

/-!
## Claim C4 — token round trip

`verify(sign(C))` before the validity window elapses returns `C` plus
the added `exp` field; strictly after the window it returns the `null`
sentinel.  (The boundary instant `now = exp` is claim C10's subject.)
-/

/-- C4: for every claim set without an `exp` field of its own, verifying
`sign claims` strictly before the validity window elapses returns the
claims plus an `exp` field equal to the signing time plus the window;
verifying after the window has elapsed returns the failure sentinel.
Hypotheses on `hmac`/`dec` state facts of the real primitives: the MAC
text is nonempty and `.`-free, and the codec decodes the body `sign`
encoded. -/
theorem verify_sign_roundtrip (hmac : Str → Str) (dec : Str → Option PayloadV)
    (claims : PayloadV) (signTime now : Int)
    (hnoexp : claims.lookup "exp" = none)
    (hs1 : hmac (macMsg (signBody claims signTime)) ≠ [])
    (hs2 : '.' ∉ hmac (macMsg (signBody claims signTime)))
    (hdec : dec (signBody claims signTime)
      = some (withExp claims (signTime + EXPIRES_IN))) :
    (now < signTime + EXPIRES_IN →
      verify hmac dec now (sign hmac claims signTime)
        = .ok (some (claims ++ [("exp", JVal.num (signTime + EXPIRES_IN))])))
    ∧ (signTime + EXPIRES_IN < now →
      verify hmac dec now (sign hmac claims signTime) = .ok none) := by
  have hwf := verify_wf hmac dec now HEADER (signBody claims signTime)
    (hmac (macMsg (signBody claims signTime))) HEADER_ne_nil dot_not_mem_HEADER
    (encPayload_ne_nil _) (dot_not_mem_encPayload _) hs1 hs2
  simp only [macMsg] at hwf
  rw [show sign hmac claims signTime
      = HEADER ++ '.' :: signBody claims signTime
          ++ '.' :: hmac (HEADER ++ '.' :: signBody claims signTime) from rfl,
    hwf, if_neg (by simp), if_neg (by simp)]
  simp only [hdec, withExp_of_no_exp claims _ hnoexp]
  constructor
  · intro hnow
    rw [if_neg (by simp [expBefore, lookup_append_exp claims _ hnoexp]; omega)]
  · intro hnow
    rw [if_pos (by simp [expBefore, lookup_append_exp claims _ hnoexp]; omega)]

/-- Concrete stand-in MAC used by witnesses: nonempty, `.`-free output
that distinguishes the messages the witnesses need distinguished. -/
def hmacW : Str → Str := fun m => 'g' :: m.filter (fun c => c ≠ '.')

/-- The claim set of a logged-in user, as issued by `AuthService.login`
(`{ userId: user._id, email: user.email }`). -/
def userClaims : PayloadV := [("userId", JVal.num 1), ("email", JVal.str "e")]

/-- Concrete stand-in payload decoder used by witnesses: inverts
`encPayload` on the bodies the witnesses exercise. -/
def decW : Str → Option PayloadV := fun s =>
  if s = signBody [] (-3599) then some (withExp [] 1)
  else if s = signBody [] (-3600) then some (withExp [] 0)
  else if s = signBody [("u", JVal.num 1)] (-3599)
    then some (withExp [("u", JVal.num 1)] 1)
  else if s = signBody userClaims (-3599)
    then some (withExp userClaims 1)
  else none

/-- Witness for `verify_sign_roundtrip`: a token signed at time `-3599`
(expiry `1`) verifies at time `0` and fails at time `2`. -/
theorem verify_sign_roundtrip_witness :
    verify hmacW decW 0 (sign hmacW [("u", JVal.num 1)] (-3599))
      = .ok (some [("u", JVal.num 1), ("exp", JVal.num 1)])
    ∧ verify hmacW decW 2 (sign hmacW [("u", JVal.num 1)] (-3599)) = .ok none :=
  ⟨(verify_sign_roundtrip hmacW decW [("u", JVal.num 1)] (-3599) 0
      (by decide) (by decide) (by decide) (by decide)).1 (by decide),
   (verify_sign_roundtrip hmacW decW [("u", JVal.num 1)] (-3599) 2
      (by decide) (by decide) (by decide) (by decide)).2 (by decide)⟩

/-!
## Claim C10 — expiry comparison is strict

The source checks `decoded.exp < Math.floor(Date.now() / 1000)`: a token
whose expiry equals the current second is *accepted*, contradicting the
claim's "at or before current time" reading.
-/

/-- C10 counterexample: a token signed so that its embedded expiry equals
the current verification second (`exp = 0`, `now = 0`) is accepted and
its claims returned, although the claim requires failure when the expiry
is at or before the current time. -/
theorem verify_at_expiry_accepts :
    verify hmacW decW 0 (sign hmacW [] (-3600)) = .ok (some [("exp", JVal.num 0)]) := by
  rfl

/-- C10 (amended): for every well-formed token over a correctly signed
`header.payload` pair, verification at time `now` fails closed exactly
when the embedded expiry is strictly before `now`; at `exp = now` the
decoded claims are still returned. -/
theorem verify_expiry_strict (hmac : Str → Str) (dec : Str → Option PayloadV)
    (now : Int) (h b : Str) (payload : PayloadV) (e : Int)
    (hh1 : h ≠ []) (hh2 : '.' ∉ h) (hb1 : b ≠ []) (hb2 : '.' ∉ b)
    (hs1 : hmac (h ++ '.' :: b) ≠ []) (hs2 : '.' ∉ hmac (h ++ '.' :: b))
    (hdec : dec b = some payload)
    (hexp : payload.lookup "exp" = some (JVal.num e)) :
    verify hmac dec now (h ++ '.' :: b ++ '.' :: hmac (h ++ '.' :: b))
      = if e < now then .ok none else .ok (some payload) := by
  rw [verify_wf hmac dec now h b (hmac (h ++ '.' :: b)) hh1 hh2 hb1 hb2 hs1 hs2,
    if_neg (by simp), if_neg (by simp)]
  simp only [hdec, expBefore, hexp]
  by_cases hlt : e < now
  · rw [if_pos (by simpa using hlt), if_pos hlt]
  · rw [if_neg (by simpa using hlt), if_neg hlt]

/-- Witness for `verify_expiry_strict`: the signed pair from
`verify_at_expiry_accepts`, checked at `now = 0` (boundary, accepted)
and at `now = 1` (strictly past expiry, rejected). -/
theorem verify_expiry_strict_witness :
    verify hmacW decW 0
        (HEADER ++ '.' :: signBody [] (-3600)
          ++ '.' :: hmacW (HEADER ++ '.' :: signBody [] (-3600)))
      = .ok (some [("exp", JVal.num 0)])
    ∧ verify hmacW decW 1
        (HEADER ++ '.' :: signBody [] (-3600)
          ++ '.' :: hmacW (HEADER ++ '.' :: signBody [] (-3600)))
      = .ok none := by
  constructor
  · rw [verify_expiry_strict hmacW decW 0 HEADER (signBody [] (-3600))
      [("exp", JVal.num 0)] 0 (by decide) (by decide) (by decide) (by decide)
      (by decide) (by decide) (by decide) (by decide)]
    rfl
  · rw [verify_expiry_strict hmacW decW 1 HEADER (signBody [] (-3600))
      [("exp", JVal.num 0)] 0 (by decide) (by decide) (by decide) (by decide)
      (by decide) (by decide) (by decide) (by decide)]
    rfl

/-!
## Claim C6 — malformed token part counts

The source destructures only the first three `split('.')` fields and
checks them for emptiness; a token with four or more parts is *not*
rejected — its extra parts are silently ignored, and a valid token with
a garbage part appended still verifies.
-/

/-- C6 counterexample: appending `.x` to a valid signed token yields a
string splitting into four non-empty parts, which the claim says must
fail closed; the code instead verifies it and returns the claims. -/
theorem verify_extra_part_accepted :
    (splitCh '.' (sign hmacW [] (-3599) ++ '.' :: ['x'])).length = 4
    ∧ verify hmacW decW 0 (sign hmacW [] (-3599) ++ '.' :: ['x'])
        = .ok (some [("exp", JVal.num 1)]) := by
  constructor
  · decide
  · rfl

/-- C6 (amended): whenever the input splits on `.` into fewer than three
parts, or one of the first three parts is empty, `verify` returns the
failure sentinel — for every `hmac` and every decoder, i.e. without
examining the signature; parts beyond the third are ignored. -/
theorem verify_missing_part_rejected (hmac : Str → Str)
    (dec : Str → Option PayloadV) (now : Int) (token : Str)
    (hbad : (splitCh '.' token).length < 3
      ∨ (splitCh '.' token).getD 0 [] = []
      ∨ (splitCh '.' token).getD 1 [] = []
      ∨ (splitCh '.' token).getD 2 [] = []) :
    verify hmac dec now token = .ok none := by
  have hcond : (splitCh '.' token).getD 0 [] = []
      ∨ (splitCh '.' token).getD 1 [] = []
      ∨ (splitCh '.' token).getD 2 [] = [] := by
    rcases hbad with hlen | h | h | h
    · exact Or.inr (Or.inr (List.getD_eq_default _ _ (by omega)))
    · exact Or.inl h
    · exact Or.inr (Or.inl h)
    · exact Or.inr (Or.inr h)
  simp only [verify]
  rw [if_pos hcond]

/-- Witness for `verify_missing_part_rejected`: `"a.b"` (two parts) and
`"a..c"` (empty middle part) are both rejected. -/
theorem verify_missing_part_rejected_witness :
    verify hmacW decW 0 "a.b".toList = .ok none
    ∧ verify hmacW decW 0 "a..c".toList = .ok none :=
  ⟨verify_missing_part_rejected hmacW decW 0 "a.b".toList (by decide),
   verify_missing_part_rejected hmacW decW 0 "a..c".toList (by decide)⟩

/-!
## Claim C5 — tamper detection

A single-character substitution in the payload or signature part is
rejected, *provided* it keeps the part `.`-free and (for the comparison
to be reached at all) the compared byte lengths equal: the
`crypto.timingSafeEqual` call in the source `throws` on buffers of
unequal byte length, so the comparison branch is not total.
-/

theorem not_mem_set_of_ne (l : Str) (i : Nat) (c' a : Char)
    (ha : a ∉ l) (hc : a ≠ c') : a ∉ l.set i c' := by
  intro h
  rcases List.mem_or_eq_of_mem_set h with h | h
  · exact ha h
  · exact hc h

theorem utf8Len_set_of_size_eq (l : Str) (i : Nat) (c' : Char)
    (hi : i < l.length) (hsz : c'.utf8Size = (l.get ⟨i, hi⟩).utf8Size) :
    utf8Len (l.set i c') = utf8Len l := by
  induction l generalizing i with
  | nil => simp at hi
  | cons a t ih =>
    cases i with
    | zero =>
      simp only [List.get] at hsz
      simp [List.set, utf8Len, hsz]
    | succ n =>
      have hn : n < t.length := by simpa using hi
      simp only [List.get] at hsz
      have := ih n hn hsz
      simp only [List.set, utf8Len, List.map_cons, List.sum_cons] at this ⊢
      omega

theorem set_ne_of_ne_get (l : Str) (i : Nat) (c' : Char)
    (hi : i < l.length) (hne : c' ≠ l.get ⟨i, hi⟩) : l.set i c' ≠ l := by
  intro h
  apply hne
  have h2 : (l.set i c')[i]? = l[i]? := by rw [h]
  rw [List.getElem?_set_self', List.getElem?_eq_getElem hi] at h2
  simp only [Option.map_some] at h2
  simpa [List.get_eq_getElem] using (Option.some_inj.mp h2)

/-- C5 counterexample: replacing the second character of the payload
segment of a signed token by `'.'` is a single-character modification of
that segment after which `verify` *throws* (the `crypto.timingSafeEqual`
length mismatch) instead of returning the failure sentinel — the
comparison branch is not total. -/
theorem verify_tamper_throws :
    sign hmacW [] (-3599)
      = HEADER ++ '.' :: signBody [] (-3599)
          ++ '.' :: hmacW (macMsg (signBody [] (-3599)))
    ∧ verify hmacW decW 0
        (HEADER ++ '.' :: (signBody [] (-3599)).set 1 '.'
          ++ '.' :: hmacW (macMsg (signBody [] (-3599)))) = .error () := by
  constructor
  · rfl
  · rfl

/-- C5 (amended): for every token produced by `sign` and every
single-character substitution, at position `i` of its payload segment or
position `j` of its signature segment, by a character other than `'.'`
(same UTF-8 size, for the signature), `verify` returns the failure
sentinel — for the payload case provided the MAC of the modified message
keeps the MAC byte length and differs from the original signature, which
is a fact of the real fixed-width HMAC absent a collision.  Substitutions
that introduce a `'.'` or change the byte length can instead make the
signature comparison throw (see the counterexample). -/
theorem verify_tamper_fails_closed (hmac : Str → Str)
    (dec : Str → Option PayloadV) (claims : PayloadV) (signTime now : Int)
    (i j : Nat) (c' d' : Char)
    (hs1 : hmac (macMsg (signBody claims signTime)) ≠ [])
    (hs2 : '.' ∉ hmac (macMsg (signBody claims signTime)))
    (hi : i < (signBody claims signTime).length) (hc' : c' ≠ '.')
    (hmacLen : utf8Len (hmac (macMsg ((signBody claims signTime).set i c')))
      = utf8Len (hmac (macMsg (signBody claims signTime))))
    (hnocol : hmac (macMsg ((signBody claims signTime).set i c'))
      ≠ hmac (macMsg (signBody claims signTime)))
    (hj : j < (hmac (macMsg (signBody claims signTime))).length)
    (hd' : d' ≠ '.')
    (hdsz : d'.utf8Size
      = ((hmac (macMsg (signBody claims signTime))).get ⟨j, hj⟩).utf8Size)
    (hdne : d' ≠ (hmac (macMsg (signBody claims signTime))).get ⟨j, hj⟩) :
    verify hmac dec now
        (HEADER ++ '.' :: (signBody claims signTime).set i c'
          ++ '.' :: hmac (macMsg (signBody claims signTime))) = .ok none
    ∧ verify hmac dec now
        (HEADER ++ '.' :: signBody claims signTime
          ++ '.' :: (hmac (macMsg (signBody claims signTime))).set j d')
      = .ok none := by
  simp only [macMsg] at hs1 hs2 hmacLen hnocol hdsz hdne hj ⊢
  constructor
  · have hb' : (signBody claims signTime).set i c' ≠ [] := by
      have := List.length_set (signBody claims signTime) i c'
      intro h
      rw [h] at this
      simp at this
      omega
    have hb'dot : '.' ∉ (signBody claims signTime).set i c' :=
      not_mem_set_of_ne _ _ _ _ (dot_not_mem_encPayload _) (Ne.symm hc')
    rw [verify_wf hmac dec now HEADER ((signBody claims signTime).set i c')
      (hmac (HEADER ++ '.' :: signBody claims signTime)) HEADER_ne_nil
      dot_not_mem_HEADER hb' hb'dot hs1 hs2]
    rw [if_neg (by simp [hmacLen]),
      if_pos (by simpa using fun h => hnocol h.symm)]
  · have hs1' : (hmac (HEADER ++ '.' :: signBody claims signTime)).set j d' ≠ [] := by
      have := List.length_set (hmac (HEADER ++ '.' :: signBody claims signTime)) j d'
      intro h
      rw [h] at this
      simp at this
      omega
    have hs2' : '.' ∉ (hmac (HEADER ++ '.' :: signBody claims signTime)).set j d' :=
      not_mem_set_of_ne _ _ _ _ hs2 (Ne.symm hd')
    rw [verify_wf hmac dec now HEADER (signBody claims signTime)
      ((hmac (HEADER ++ '.' :: signBody claims signTime)).set j d') HEADER_ne_nil
      dot_not_mem_HEADER (encPayload_ne_nil _) (dot_not_mem_encPayload _) hs1' hs2']
    rw [if_neg (by simp [utf8Len_set_of_size_eq _ j d' hj hdsz]),
      if_pos (by simpa using set_ne_of_ne_get _ j d' hj hdne)]

/-- Witness for `verify_tamper_fails_closed`: a concrete signed token
with its payload's first character replaced by `'Q'`, and with its
signature's first character replaced by `'h'`; both are rejected. -/
theorem verify_tamper_fails_closed_witness :
    verify hmacW decW 0
        (HEADER ++ '.' :: (signBody [] (-3599)).set 0 'Q'
          ++ '.' :: hmacW (macMsg (signBody [] (-3599)))) = .ok none
    ∧ verify hmacW decW 0
        (HEADER ++ '.' :: signBody [] (-3599)
          ++ '.' :: (hmacW (macMsg (signBody [] (-3599)))).set 0 'h')
      = .ok none :=
  verify_tamper_fails_closed hmacW decW [] (-3599) 0 0 0 'Q' 'h'
    (by decide) (by decide) (by decide) (by decide) (by decide) (by decide)
    (by decide) (by decide) (by decide) (by decide)

/-!
## Auth guard and revocation set
(`src/middleware/auth/auth.middleware.js`, `src/services/auth/auth.service.js`)

`AuthService.logout` adds the token text to the module-level
`tokenBlacklist`; `AuthService.isTokenRevoked` tests membership.  The
middleware's `Auth.authenticate` checks the `Authorization` header
shape, runs `TokenService.verify`, and requires truthy `userId` and
`email` claims — and consults nothing else: no caller of
`isTokenRevoked` exists anywhere in the repository, although the
service's own documentation says "All protected routes must check this
blacklist" and "Used by authentication middleware before allowing
access".
-/

/-- JS truthiness of an optionally-present payload field
(`!decoded?.userId`). -/
def truthy : Option JVal → Bool
  | none => false
  | some (.str s) => s ≠ ""
  | some (.num n) => n ≠ 0

/-- Outcome of `Auth.authenticate`: a 401 response, an exception reaching
the catch block, or the decoded claims returned (and then attached to the
request context by the caller). -/
inductive AuthOutcome
  | unauthorized
  | caughtError
  | success (decoded : PayloadV)
deriving DecidableEq, Repr

/-- Model of `authHeader.startsWith('Bearer ')`. -/
def startsWithBearer (h : Str) : Bool := "Bearer ".toList.isPrefixOf h

/-- Model of `Auth.authenticate` (src/middleware/auth/auth.middleware.js
lines 37–62) at verification time `now`: header-shape check, token
extraction via `authHeader.split(' ')[1]`, `TokenService.verify`, and
the truthiness checks on `decoded.userId` / `decoded.email`.  The
revocation set is not a parameter because the source function never
consults it. -/
def authenticate (hmac : Str → Str) (dec : Str → Option PayloadV) (now : Int)
    (authHeader : Option Str) : AuthOutcome :=
  match authHeader with
  | none => .unauthorized
  | some h =>
    if ¬ startsWithBearer h then .unauthorized
    else
      match verify hmac dec now ((splitCh ' ' h).getD 1 []) with
      | .error _ => .caughtError
      | .ok none => .unauthorized
      | .ok (some decoded) =>
        if ¬ truthy (decoded.lookup "userId") ∨ ¬ truthy (decoded.lookup "email")
        then .unauthorized
        else .success decoded

/-- Model of `AuthService.logout`: throws `BadRequest` on an empty/missing
token, otherwise adds the token text to the blacklist set and reports
success. -/
def logout (blacklist : List Str) (token : Str) :
    Except Unit (List Str × Bool) :=
  if token = [] then .error ()
  else .ok (if token ∈ blacklist then blacklist else blacklist ++ [token], true)

/-- Model of `AuthService.isTokenRevoked`: membership in the blacklist. -/
def isTokenRevoked (blacklist : List Str) (token : Str) : Bool :=
  token ∈ blacklist

/-!
## Claim C2 — revoked-but-unexpired tokens

The claim (and the spec, and the service's own doc comments) require a
revoked, unexpired token to fail authentication.  No authentication path
in the repository consults the revocation set, so such a token is
accepted and its claims attached.
-/

/-- C2: evaluation of the code at the failing input.  A token signed for
a valid user is passed to `logout` (so `isTokenRevoked` is `true` for
it), its expiry (`1`) has not passed at verification time `0`, and yet
`Auth.authenticate` on the header `Bearer <token>` returns `success`
with the decoded claims rather than an Unauthorized outcome. -/
theorem revoked_token_accepted :
    logout [] (sign hmacW userClaims (-3599))
      = .ok ([sign hmacW userClaims (-3599)], true)
    ∧ isTokenRevoked [sign hmacW userClaims (-3599)]
        (sign hmacW userClaims (-3599)) = true
    ∧ authenticate hmacW decW 0
        (some ("Bearer ".toList ++ sign hmacW userClaims (-3599)))
      = .success (userClaims ++ [("exp", JVal.num 1)]) := by
  refine ⟨?_, by decide, ?_⟩
  · rfl
  · rfl

/-!
## Document store (`ModelTools`, `src/unnamed/part_010`)

The backing JSON file of one resource holds a single array of records
under the entity key; that array is the state (`Collection`).  A record
at rest is its integer `_id` plus the remaining fields; an input
document optionally embeds an `_id` of its own.  File-system access
(`findAll`'s lazy initialisation, `writeFile`) is abstracted into pure
state passing; a synchronous validation throw is `.error ()`, and on a
throw the persisted state is unchanged because the write never runs.
The model uses integer ids; `_validateID` additionally rejects
non-integer input, which the `Int`-typed id already rules out.
-/

/-- A record at rest: the `_id` identity plus the remaining fields (a JS
object modelled as an association list with distinct keys). -/
structure StoredDoc where
  _id : Int
  fields : List (String × JVal)
deriving DecidableEq, Repr

/-- An input document for `create`/`update`: an optional embedded `_id`
plus the remaining fields. -/
structure InputDoc where
  embeddedId : Option Int
  fields : List (String × JVal)
deriving DecidableEq, Repr

/-- The persisted collection of one resource. -/
abbrev Collection := List StoredDoc

namespace ModelTools

/-- `_validateID`: `Number.isInteger(id) && id > 0`. -/
def validId (id : Int) : Bool := 0 < id

/-- Next-identity computation in `create`:
`existing.length === 0 ? 1 : Math.max(...existing.map(ex => ex._id)) + 1`. -/
def nextIdOf (existing : Collection) : Int :=
  if existing.length = 0 then 1
  else ((existing.map StoredDoc._id).max?.getD 0) + 1

/-- The record-construction loop of `create`:
`const saved = { _id: nextId++, ...item }` — an `_id` embedded in the
input item wins over the assigned one because the spread of `item`
follows the `_id` property. -/
def createLoop (nextId : Int) : List InputDoc → List StoredDoc
  | [] => []
  | item :: rest =>
    { _id := item.embeddedId.getD nextId, fields := item.fields }
      :: createLoop (nextId + 1) rest

/-- `ModelTools.create`: validates the payload shape (`_validateData`
throws on an empty array), computes the next identity once from the
pre-existing maximum, appends the new records, persists, and returns
exactly the created records. -/
def create (existing : Collection) (data : List InputDoc) :
    Except Unit (Collection × List StoredDoc) :=
  if data.length = 0 then .error ()
  else
    .ok (existing ++ createLoop (nextIdOf existing) data,
      createLoop (nextIdOf existing) data)

/-- `ModelTools.findOne`: validates the id, then linear-scans for the
first record whose `_id` equals it; a singleton or empty result, never a
throw for "not found". -/
def findOne (existing : Collection) (id : Int) :
    Except Unit (List StoredDoc) :=
  if ¬ validId id then .error ()
  else .ok (match existing.find? (fun d => d._id == id) with
    | some found => [found]
    | none => [])

/-- The JS object spread `{...old, ...updates}`: keys of `old` keep
their order with updated values; new keys of `updates` are appended. -/
def mergeFields (old new : List (String × JVal)) : List (String × JVal) :=
  old.map (fun kv => (kv.1, (new.lookup kv.1).getD kv.2))
    ++ new.filter (fun kv => (old.lookup kv.1).isNone)

/-- `ModelTools.update`: validates; locates the record by id (empty
result if absent); destructures the first update object as
`const { _id: ignored, ...safeUpdates } = data[0]` so an embedded
identity is discarded; merges `safeUpdates` over the existing record;
persists and returns the updated record. -/
def update (existing : Collection) (data : List InputDoc) (id : Int) :
    Except Unit (Collection × List StoredDoc) :=
  if ¬ validId id then .error ()
  else if data.length = 0 then .error ()
  else
    match existing.findIdx? (fun d => d._id == id) with
    | none => .ok (existing, [])
    | some index =>
      .ok (existing.set index
        { _id := (existing.getD index ⟨0, []⟩)._id,
          fields := mergeFields (existing.getD index ⟨0, []⟩).fields
            (data.headD ⟨none, []⟩).fields },
        [{ _id := (existing.getD index ⟨0, []⟩)._id,
           fields := mergeFields (existing.getD index ⟨0, []⟩).fields
             (data.headD ⟨none, []⟩).fields }])

/-- `ModelTools.delete`: validates; locates the record by id (empty
result if absent); `splice`s it out, persists the remaining collection,
and returns the removed record. -/
def delete (existing : Collection) (id : Int) :
    Except Unit (Collection × List StoredDoc) :=
  if ¬ validId id then .error ()
  else
    match existing.findIdx? (fun d => d._id == id) with
    | none => .ok (existing, [])
    | some index =>
      .ok (existing.eraseIdx index, [existing.getD index ⟨0, []⟩])

end ModelTools

/-- A store operation against one resource collection, for stating
invariants over operation sequences. -/
inductive StoreOp
  | createOp (data : List InputDoc)
  | updateOp (data : List InputDoc) (id : Int)
  | deleteOp (id : Int)

/-- Applying one operation to the persisted state: on a validation
throw the write never runs, so the state is unchanged. -/
def applyOp (coll : Collection) : StoreOp → Collection
  | .createOp data =>
    match ModelTools.create coll data with
    | .ok (c, _) => c
    | .error _ => coll
  | .updateOp data id =>
    match ModelTools.update coll data id with
    | .ok (c, _) => c
    | .error _ => coll
  | .deleteOp id =>
    match ModelTools.delete coll id with
    | .ok (c, _) => c
    | .error _ => coll

/-- Running a sequence of store operations from a given state. -/
def runOps (coll : Collection) (ops : List StoreOp) : Collection :=
  ops.foldl applyOp coll

/-- An operation whose create inputs carry no identity field of their
own (the hypothesis of claim C3). -/
def cleanCreates : StoreOp → Prop
  | .createOp data => ∀ d ∈ data, d.embeddedId = none
  | _ => True

/-- The identities currently present in a collection. -/
def idsOf (coll : Collection) : List Int := coll.map StoredDoc._id

theorem createLoop_length (nextId : Int) (data : List InputDoc) :
    (ModelTools.createLoop nextId data).length = data.length := by
  induction data generalizing nextId with
  | nil => rfl
  | cons item rest ih => simp [ModelTools.createLoop, ih]

theorem createLoop_ids_clean (data : List InputDoc) (nextId : Int)
    (h : ∀ d ∈ data, d.embeddedId = none) :
    (ModelTools.createLoop nextId data).map StoredDoc._id
      = (List.range data.length).map (fun k : Nat => nextId + (k : Int)) := by
  induction data generalizing nextId with
  | nil => rfl
  | cons item rest ih =>
    have h0 : item.embeddedId = none := h item (List.mem_cons_self _ _)
    rw [ModelTools.createLoop, List.map_cons,
      ih _ (fun d hd => h d (List.mem_cons_of_mem _ hd)),
      List.length_cons, List.range_succ_eq_map, List.map_cons, List.map_map]
    simp only [h0, Option.getD_none, Nat.cast_zero, add_zero]
    refine congrArg _ (List.map_congr_left fun k _ => ?_)
    simp only [Function.comp_apply]
    push_cast
    ring

theorem createLoop_getD (data : List InputDoc) (nextId : Int) (k : Nat)
    (hk : k < data.length) :
    (ModelTools.createLoop nextId data).getD k ⟨0, []⟩
      = { _id := ((data.getD k ⟨none, []⟩).embeddedId).getD (nextId + k),
          fields := (data.getD k ⟨none, []⟩).fields } := by
  induction data generalizing nextId k with
  | nil => simp at hk
  | cons item rest ih =>
    cases k with
    | zero => simp [ModelTools.createLoop]
    | succ n =>
      have hn : n < rest.length := by simpa using hk
      rw [ModelTools.createLoop]
      simp only [List.getD_cons_succ]
      rw [ih _ n hn]
      have : nextId + 1 + (n : Int) = nextId + ((n : Int) + 1) := by ring
      simp [this]

theorem id_le_max (coll : Collection) (d : StoredDoc) (hd : d ∈ coll) :
    d._id ≤ (coll.map StoredDoc._id).max?.getD 0 := by
  obtain ⟨m, hm⟩ : ∃ m, (coll.map StoredDoc._id).max? = some m := by
    cases h : (coll.map StoredDoc._id).max? with
    | none =>
      rw [List.max?_eq_none_iff] at h
      rw [List.map_eq_nil_iff] at h
      subst h
      simp at hd
    | some m => exact ⟨m, rfl⟩
  rw [hm]
  haveI : Std.Antisymm (fun x1 x2 : Int => x1 ≤ x2) :=
    ⟨@fun _ _ h h' => le_antisymm h h'⟩
  have hiff := (List.max?_eq_some_iff (fun a => le_refl a)
    (fun a b => max_choice a b) (fun a b c => max_le_iff)).mp hm
  exact hiff.2 _ (List.mem_map_of_mem _ hd)

theorem id_lt_nextIdOf (coll : Collection) (d : StoredDoc) (hd : d ∈ coll) :
    d._id < ModelTools.nextIdOf coll := by
  rw [ModelTools.nextIdOf,
    if_neg (by simp only [List.length_eq_zero]; rintro rfl; simp at hd)]
  have := id_le_max coll d hd
  omega

theorem set_getD_self (l : List α) (i : Nat) (d : α) (hi : i < l.length) :
    l.set i (l.getD i d) = l := by
  induction l generalizing i with
  | nil => simp at hi
  | cons a t ih =>
    cases i with
    | zero => simp
    | succ n =>
      have hn : n < t.length := by simpa using hi
      show a :: t.set n (t.getD n d) = a :: t
      rw [ih _ hn]

theorem lookup_append_str (l₁ l₂ : List (String × JVal)) (a : String) :
    (l₁ ++ l₂).lookup a
      = match l₁.lookup a with
        | some v => some v
        | none => l₂.lookup a := by
  induction l₁ with
  | nil => simp [List.lookup]
  | cons kv t ih =>
    simp only [List.cons_append, List.lookup]
    cases (a == kv.1) <;> simp [ih]

theorem lookup_map_getD_of_lookup_some (old : List (String × JVal))
    (g : String → JVal → JVal) (k : String) (w : JVal)
    (h : old.lookup k = some w) :
    (old.map (fun kv => (kv.1, g kv.1 kv.2))).lookup k = some (g k w) := by
  induction old with
  | nil => simp [List.lookup] at h
  | cons kv t ih =>
    simp only [List.map_cons, List.lookup] at h ⊢
    cases hk : (k == kv.1) with
    | true =>
      rw [hk] at h
      simp only [Option.some_inj] at h
      have : k = kv.1 := by simpa using hk
      simp [← this, ← h]
    | false =>
      rw [hk] at h
      exact ih h

theorem lookup_map_of_lookup_none (old : List (String × JVal))
    (g : String → JVal → JVal) (k : String)
    (h : old.lookup k = none) :
    (old.map (fun kv => (kv.1, g kv.1 kv.2))).lookup k = none := by
  induction old with
  | nil => simp [List.lookup]
  | cons kv t ih =>
    simp only [List.map_cons, List.lookup] at h ⊢
    cases hk : (k == kv.1) with
    | true => rw [hk] at h; simp at h
    | false => rw [hk] at h; exact ih h

theorem lookup_filter_of_old_none (new old : List (String × JVal))
    (k : String) (h : old.lookup k = none) :
    (new.filter (fun kv => (old.lookup kv.1).isNone)).lookup k
      = new.lookup k := by
  induction new with
  | nil => simp
  | cons kv t ih =>
    by_cases hk : (k == kv.1) = true
    · have hkeq : k = kv.1 := by simpa using hk
      have : (old.lookup kv.1).isNone = true := by rw [← hkeq, h]; rfl
      simp only [List.filter_cons, this, if_pos rfl, List.lookup, hk]
    · simp only [List.filter_cons, List.lookup, hk]
      cases (old.lookup kv.1).isNone with
      | true => simp only [List.lookup, hk, Bool.false_eq_true, if_true]; exact ih
      | false => exact ih

theorem lookup_mergeFields (old new : List (String × JVal)) (k : String)
    (v : JVal) (h : new.lookup k = some v) :
    (ModelTools.mergeFields old new).lookup k = some v := by
  rw [ModelTools.mergeFields, lookup_append_str]
  cases hold : old.lookup k with
  | some w =>
    rw [lookup_map_getD_of_lookup_some old (fun key oldV => (new.lookup key).getD oldV) k w hold]
    simp [h]
  | none =>
    rw [lookup_map_of_lookup_none old (fun key oldV => (new.lookup key).getD oldV) k hold]
    rw [lookup_filter_of_old_none new old k hold]
    exact h

theorem findIdx?_id_some (coll : Collection) (id : Int) (index : Nat)
    (h : coll.findIdx? (fun d => d._id == id) = some index) :
    index < coll.length ∧ (coll.getD index ⟨0, []⟩)._id = id := by
  obtain ⟨hlt, hp, -⟩ := List.findIdx?_eq_some_iff_getElem.mp h
  refine ⟨hlt, ?_⟩
  rw [List.getD_eq_getElem?_getD, List.getElem?_eq_getElem hlt]
  simpa using hp

theorem create_ok (coll : Collection) (data : List InputDoc)
    (hd : data ≠ []) :
    ModelTools.create coll data
      = .ok (coll ++ ModelTools.createLoop (ModelTools.nextIdOf coll) data,
          ModelTools.createLoop (ModelTools.nextIdOf coll) data) := by
  rw [ModelTools.create, if_neg (by simpa using hd)]

theorem idsOf_applyOp_updateOp (coll : Collection) (data : List InputDoc)
    (id : Int) : idsOf (applyOp coll (.updateOp data id)) = idsOf coll := by
  simp only [applyOp, ModelTools.update]
  by_cases h1 : ¬ ModelTools.validId id = true
  · rw [if_pos h1]
  · rw [if_neg h1]
    by_cases h2 : data.length = 0
    · rw [if_pos h2]
    · rw [if_neg h2]
      cases hfind : coll.findIdx? (fun d => d._id == id) with
      | none => rfl
      | some index =>
        obtain ⟨hlt, hid⟩ := findIdx?_id_some coll id index hfind
        show idsOf (coll.set index _) = idsOf coll
        rw [idsOf, List.map_set]
        have hmapD : (coll.getD index ⟨0, []⟩)._id
            = (coll.map StoredDoc._id).getD index 0 := by
          rw [List.getD_eq_getElem?_getD, List.getD_eq_getElem?_getD,
            List.getElem?_map]
          rw [List.getElem?_eq_getElem hlt]
          rfl
        rw [hmapD, set_getD_self _ _ _ (by simpa using hlt)]
        rfl

theorem nodup_ids_applyOp (coll : Collection) (op : StoreOp)
    (hclean : cleanCreates op) (h : (idsOf coll).Nodup) :
    (idsOf (applyOp coll op)).Nodup := by
  cases op with
  | createOp data =>
    by_cases hne : data = []
    · subst hne; exact h
    · simp only [applyOp, create_ok coll data hne]
      rw [idsOf, List.map_append]
      apply List.Nodup.append
      · exact h
      · rw [createLoop_ids_clean data _ hclean]
        refine (List.nodup_range _).map ?_
        intro a b hab
        simpa using hab
      · intro x hx hx'
        rw [createLoop_ids_clean data _ hclean] at hx'
        obtain ⟨k, hk, hxk⟩ := List.mem_map.mp hx'
        obtain ⟨dd, hdd, hxd⟩ := List.mem_map.mp hx
        have hbound := id_lt_nextIdOf coll dd hdd
        rw [hxd] at hbound
        omega
  | updateOp data id =>
    rw [idsOf_applyOp_updateOp coll data id]
    exact h
  | deleteOp id =>
    simp only [applyOp, ModelTools.delete]
    by_cases h1 : ¬ ModelTools.validId id = true
    · rw [if_pos h1]; exact h
    · rw [if_neg h1]
      cases hfind : coll.findIdx? (fun d => d._id == id) with
      | none => exact h
      | some index =>
        exact List.Nodup.sublist ((List.eraseIdx_sublist _ _).map _) h

theorem nodup_ids_runOps (ops : List StoreOp) (coll : Collection)
    (hclean : ∀ op ∈ ops, cleanCreates op) (h : (idsOf coll).Nodup) :
    (idsOf (runOps coll ops)).Nodup := by
  induction ops generalizing coll with
  | nil => exact h
  | cons op rest ih =>
    exact ih _ (fun o ho => hclean o (List.mem_cons_of_mem _ ho))
      (nodup_ids_applyOp coll op (hclean op (List.mem_cons_self _ _)) h)

theorem idsOf_set_self_id (coll : Collection) (index : Nat)
    (hlt : index < coll.length) (fs : List (String × JVal)) :
    idsOf (coll.set index ⟨(coll.getD index ⟨0, []⟩)._id, fs⟩)
      = idsOf coll := by
  rw [idsOf, List.map_set]
  have hmapD : (coll.getD index ⟨0, []⟩)._id
      = (coll.map StoredDoc._id).getD index 0 := by
    rw [List.getD_eq_getElem?_getD, List.getD_eq_getElem?_getD,
      List.getElem?_map, List.getElem?_eq_getElem hlt]
    rfl
  rw [hmapD, set_getD_self _ _ _ (by simpa using hlt)]
  rfl

/-!
## Claim C3 — identity assignment, uniqueness, and (non-)reuse

The next identity is `1 + max(existing ids)` (or `1` when empty), so
consecutive creates ascend and identities stay unique; but after the
record holding the maximum identity is deleted, the computation reuses
its identity — the spec's own example `create A → 1; delete A;
create B → 2` is wrong on the code, which gives `B` the identity `1`.
-/

/-- C3 counterexample: create one record in an empty collection (it gets
identity 1), delete it, create again — the new record gets identity 1
again: identities ARE reused after deletion. -/
theorem create_after_delete_reuses_id :
    ModelTools.create [] [⟨none, []⟩] = .ok ([⟨1, []⟩], [⟨1, []⟩])
    ∧ ModelTools.delete [⟨1, []⟩] 1 = .ok ([], [⟨1, []⟩])
    ∧ ModelTools.create [] [⟨none, []⟩] = .ok ([⟨1, []⟩], [⟨1, []⟩]) :=
  ⟨rfl, rfl, rfl⟩

/-- C3 (amended): for create inputs carrying no identity field, `create`
on an empty collection assigns identity 1 to the first record, and on a
non-empty collection assigns, in order, consecutive ascending identities
starting at 1 + the maximum existing identity; along every operation
sequence whose create inputs carry no identity field, the identities in
the collection stay unique.  (The claim's "identities are never reused
after deletion" is dropped: deleting the maximum-identity record lets
the next create reuse its identity.) -/
theorem create_identity_assignment (existing : Collection)
    (data : List InputDoc) (hne : data ≠ [])
    (hnoid : ∀ d ∈ data, d.embeddedId = none) :
    (∃ created,
      ModelTools.create existing data = .ok (existing ++ created, created)
      ∧ created.map StoredDoc._id
        = (List.range data.length).map (fun k : Nat =>
            (if existing = [] then 1
             else ((existing.map StoredDoc._id).max?.getD 0) + 1) + (k : Int)))
    ∧ (∀ ops : List StoreOp, (∀ op ∈ ops, cleanCreates op) →
        (idsOf (runOps [] ops)).Nodup) := by
  constructor
  · refine ⟨ModelTools.createLoop (ModelTools.nextIdOf existing) data,
      create_ok existing data hne, ?_⟩
    rw [createLoop_ids_clean data _ hnoid]
    have hnext : ModelTools.nextIdOf existing
        = (if existing = [] then 1
           else ((existing.map StoredDoc._id).max?.getD 0) + 1) := by
      simp only [ModelTools.nextIdOf, List.length_eq_zero]
    rw [hnext]
  · intro ops hclean
    exact nodup_ids_runOps ops [] hclean (by simp [idsOf])

/-- Witness for `create_identity_assignment`: two id-less inputs created
over a collection whose maximum identity is 5 get identities 6 and 7. -/
theorem create_identity_assignment_witness :
    (∃ created,
      ModelTools.create [⟨5, []⟩] [⟨none, []⟩, ⟨none, []⟩]
        = .ok ([⟨5, []⟩] ++ created, created)
      ∧ created.map StoredDoc._id
        = (List.range 2).map (fun k : Nat =>
            (if ([⟨5, []⟩] : Collection) = [] then 1
             else ((([⟨5, []⟩] : Collection).map StoredDoc._id).max?.getD 0) + 1)
              + (k : Int)))
    ∧ (∀ ops : List StoreOp, (∀ op ∈ ops, cleanCreates op) →
        (idsOf (runOps [] ops)).Nodup) :=
  create_identity_assignment [⟨5, []⟩] [⟨none, []⟩, ⟨none, []⟩]
    (by decide) (by decide)

/-!
## Claim C7 — create keeps a caller-embedded `_id`
-/

/-- C7: `create` stores and returns an input record's embedded `_id` in
place of the assigned identity — in `{ _id: nextId++, ...item }` the
spread of `item` follows the `_id` property and wins — so, unlike
`update`, `create` does not discard an embedded `_id`, and a
caller-supplied `_id` can collide with an existing identity. -/
theorem create_embedded_id_overrides (existing : Collection)
    (data : List InputDoc) (k : Nat) (hk : k < data.length) (j : Int)
    (hj : (data.getD k ⟨none, []⟩).embeddedId = some j) :
    ∃ created,
      ModelTools.create existing data = .ok (existing ++ created, created)
      ∧ created.length = data.length
      ∧ (created.getD k ⟨0, []⟩)._id = j
      ∧ (created.getD k ⟨0, []⟩).fields = (data.getD k ⟨none, []⟩).fields := by
  have hne : data ≠ [] := by rintro rfl; simp at hk
  refine ⟨_, create_ok existing data hne, createLoop_length _ _, ?_, ?_⟩
  · rw [createLoop_getD data _ k hk, hj]
    rfl
  · rw [createLoop_getD data _ k hk]

/-- Witness for `create_embedded_id_overrides`: an input embedding
`_id: 1` is stored with identity 1 even though the collection already
holds a record with identity 1 — a collision. -/
theorem create_embedded_id_overrides_witness :
    ∃ created,
      ModelTools.create [⟨1, []⟩] [⟨some 1, [("name", JVal.str "X")]⟩]
        = .ok ([⟨1, []⟩] ++ created, created)
      ∧ created.length = ([⟨some 1, [("name", JVal.str "X")]⟩] : List InputDoc).length
      ∧ (created.getD 0 ⟨0, []⟩)._id = 1
      ∧ (created.getD 0 ⟨0, []⟩).fields
        = (([⟨some 1, [("name", JVal.str "X")]⟩] : List InputDoc).getD 0
            ⟨none, []⟩).fields :=
  create_embedded_id_overrides [⟨1, []⟩] [⟨some 1, [("name", JVal.str "X")]⟩]
    0 (by decide) 1 (by decide)

/-!
## Claim C8 — update never mutates identity
-/

/-- C8: for an `update` whose first element embeds an `_id` (e.g. 999)
while targeting an existing record with identity `id`, the persisted and
returned record keeps identity `id` — the destructuring
`const { _id: ignored, ...safeUpdates } = data[0]` discards the embedded
identity — the collection's identities are unchanged, and every other
field of the update is merged over the existing record. -/
theorem update_discards_embedded_id (existing : Collection)
    (first : InputDoc) (rest : List InputDoc) (id : Int) (hid : 0 < id)
    (hmem : id ∈ idsOf existing) :
    ∃ coll' merged,
      ModelTools.update existing (first :: rest) id = .ok (coll', [merged])
      ∧ merged._id = id
      ∧ idsOf coll' = idsOf existing
      ∧ (∀ key v, first.fields.lookup key = some v
          → merged.fields.lookup key = some v) := by
  have hsome : (existing.findIdx? (fun d => d._id == id)).isSome := by
    rw [List.findIdx?_isSome, List.any_eq_true]
    obtain ⟨d, hd, hdid⟩ := List.mem_map.mp hmem
    exact ⟨d, hd, by simp [hdid]⟩
  obtain ⟨index, hfind⟩ := Option.isSome_iff_exists.mp hsome
  obtain ⟨hlt, hid'⟩ := findIdx?_id_some existing id index hfind
  have hupdate : ModelTools.update existing (first :: rest) id
      = .ok (existing.set index
          ⟨(existing.getD index ⟨0, []⟩)._id,
            ModelTools.mergeFields (existing.getD index ⟨0, []⟩).fields
              first.fields⟩,
          [⟨(existing.getD index ⟨0, []⟩)._id,
            ModelTools.mergeFields (existing.getD index ⟨0, []⟩).fields
              first.fields⟩]) := by
    simp only [ModelTools.update]
    rw [if_neg (by simp [ModelTools.validId, hid]), if_neg (by simp), hfind]
    rfl
  refine ⟨_, _, hupdate, hid', idsOf_set_self_id existing index hlt _, ?_⟩
  intro key v hv
  exact lookup_mergeFields _ _ key v hv

/-- Witness for `update_discards_embedded_id`: spec example — updating
record 3 with `{ _id: 999, name: "X" }` keeps identity 3 and merges the
`name` field. -/
theorem update_discards_embedded_id_witness :
    ∃ coll' merged,
      ModelTools.update [⟨3, [("a", JVal.num 0)]⟩]
          [⟨some 999, [("name", JVal.str "X")]⟩] 3 = .ok (coll', [merged])
      ∧ merged._id = 3
      ∧ idsOf coll' = idsOf [⟨3, [("a", JVal.num 0)]⟩]
      ∧ (∀ key v,
          (⟨some 999, [("name", JVal.str "X")]⟩ : InputDoc).fields.lookup key
            = some v
          → merged.fields.lookup key = some v) :=
  update_discards_embedded_id [⟨3, [("a", JVal.num 0)]⟩]
    ⟨some 999, [("name", JVal.str "X")]⟩ [] 3 (by decide) (by decide)

/-!
## Claim C9 — not-found is an empty result, not an error
-/

/-- C9: for every well-formed (positive integer) id matching no record
in the collection, `findOne`, `update` and `delete` return an empty
result set and never throw, and `update`/`delete` leave the stored
collection unchanged. -/
theorem notfound_empty_result (existing : Collection) (id : Int)
    (data : List InputDoc) (hid : 0 < id) (hdata : data ≠ [])
    (hnot : id ∉ idsOf existing) :
    ModelTools.findOne existing id = .ok []
    ∧ ModelTools.update existing data id = .ok (existing, [])
    ∧ ModelTools.delete existing id = .ok (existing, []) := by
  have hall : ∀ d ∈ existing, ((fun d => d._id == id) d) = false := by
    intro d hd
    simp only [beq_eq_false_iff_ne, ne_eq]
    intro hdid
    exact hnot (hdid ▸ List.mem_map_of_mem StoredDoc._id hd)
  have hfind : existing.find? (fun d => d._id == id) = none :=
    List.find?_eq_none.mpr (by intro x hx; simp [hall x hx])
  have hfindIdx : existing.findIdx? (fun d => d._id == id) = none :=
    List.findIdx?_eq_none_iff.mpr hall
  refine ⟨?_, ?_, ?_⟩
  · simp only [ModelTools.findOne]
    rw [if_neg (by simp [ModelTools.validId, hid]), hfind]
  · simp only [ModelTools.update]
    rw [if_neg (by simp [ModelTools.validId, hid]),
      if_neg (by simpa using hdata), hfindIdx]
  · simp only [ModelTools.delete]
    rw [if_neg (by simp [ModelTools.validId, hid]), hfindIdx]

/-- Witness for `notfound_empty_result`: id 2 against a collection whose
only record has identity 1. -/
theorem notfound_empty_result_witness :
    ModelTools.findOne [⟨1, []⟩] 2 = .ok []
    ∧ ModelTools.update [⟨1, []⟩] [⟨none, [("a", JVal.num 7)]⟩] 2
        = .ok ([⟨1, []⟩], [])
    ∧ ModelTools.delete [⟨1, []⟩] 2 = .ok ([⟨1, []⟩], []) :=
  notfound_empty_result [⟨1, []⟩] 2 [⟨none, [("a", JVal.num 7)]⟩]
    (by decide) (by decide) (by decide)
